import Mathlib

/-!
# Verification of the RAGnTeX PDF figure-extraction pipeline

Shallow embedding of `src/ragntex_processing.py`: the proximity-graph
grouping of drawing bounding boxes (`group_bounding_boxes`), bounding-box
merging (`merge_bounding_boxes`), the chunked pipeline
(`process_large_drawing`), the area filter and render loop of
`extract_vector`, and the page-text accumulation of `extract_pdf_ragntex`.

Coordinates are modelled as rationals (the source uses Python floats via
PyMuPDF `fitz.Rect`; all claims are about order/arithmetic structure, not
rounding).  A `fitz.Rect` is the quadruple `(x0, y0, x1, y1)` =
`(left, top, right, bottom)`.
-/

namespace RagnTex

/-- The `fitz.Rect` type: axis-aligned rectangle `(left, top, right, bottom)`. -/
structure Rect where
  x0 : ℚ
  y0 : ℚ
  x1 : ℚ
  y1 : ℚ
deriving DecidableEq, Repr

/-- Expansion `rect + (-t, -t, t, t)` — the threshold expansion used at
`ragntex_processing.py:84` and `:90` (fitz rectangle/tuple addition is
componentwise). -/
def expandRect (r : Rect) (t : ℚ) : Rect :=
  ⟨r.x0 - t, r.y0 - t, r.x1 + t, r.y1 + t⟩

/-- Intersection test of the `rtree` spatial index (`idx.intersection`,
`ragntex_processing.py:91`).  libspatialindex treats boxes as closed:
two boxes intersect iff on each axis the intervals overlap, boundary
contact included (`Region::intersectsRegion` rejects only
`low > other.high` or `high < other.low`). -/
def rtreeIntersects (a b : Rect) : Bool :=
  decide (a.x0 ≤ b.x1) && decide (b.x0 ≤ a.x1) &&
  decide (a.y0 ≤ b.y1) && decide (b.y0 ≤ a.y1)

/-- The test actually performed between two entries of the proximity graph:
both rectangles are expanded by the threshold (insert at line 84, query at
line 90) and the expanded forms are intersected by the spatial index. -/
def closeRects (t : ℚ) (a b : Rect) : Bool :=
  rtreeIntersects (expandRect a t) (expandRect b t)

/-- PyMuPDF `Rect.is_empty` (mirroring MuPDF `fz_is_empty_rect`): a
rectangle is empty when `x0 >= x1` or `y0 >= y1` — degenerate extent on
either axis, e.g. the bounding box of a horizontal or vertical line. -/
def Rect.is_empty (r : Rect) : Bool :=
  decide (r.x0 ≥ r.x1) || decide (r.y0 ≥ r.y1)

/-- The fitz `|` operator (`Rect.include_rect`, mirroring MuPDF
`fz_union_rect`): an empty operand is ignored and an empty accumulator is
replaced by the operand (empty operand checked first — both empty gives
the accumulator); only when both rectangles are non-empty is the result
the componentwise min/max enclosing rectangle.  (The infinite-rectangle
special case cannot arise from finite page coordinates and is not
modelled.) -/
def Rect.union (a b : Rect) : Rect :=
  if b.is_empty then a
  else if a.is_empty then b
  else ⟨min a.x0 b.x0, min a.y0 b.y0, max a.x1 b.x1, max a.y1 b.y1⟩

/-- Function `merge_bounding_boxes` (`ragntex_processing.py:70-77`):
`None` on an empty list, otherwise the running `|` (fitz union, see
`Rect.union`) starting from the first element. -/
def merge_bounding_boxes (bboxes : List Rect) : Option Rect :=
  match bboxes with
  | [] => none
  | b :: bs => some (bs.foldl Rect.union b)

/-- The zero rectangle `Rect(0, 0, 0, 0)` — the only rectangle that is
falsy in PyMuPDF (`Rect.__bool__` is `max(map(abs, self)) != 0`). -/
def zeroRect : Rect := ⟨0, 0, 0, 0⟩

/-- The input filter of `process_large_drawing`
(`ragntex_processing.py:118`): `[fitz.Rect(d["rect"]) for d in drawings if
d.get("rect")]`.  A drawing is modelled as `Option Rect` (`none` = missing
`"rect"` key / `None` value).  `d.get("rect")` is truthy unless it is
`None` or the all-zero rectangle (PyMuPDF truthiness, see `zeroRect`). -/
def filterDrawings (drawings : List (Option Rect)) : List Rect :=
  drawings.filterMap fun d =>
    match d with
    | none => none
    | some r => if r = zeroRect then none else some r

/-- The size filter of `extract_vector` (`ragntex_processing.py:179-182`):
`width = bbox[2] - bbox[0]`, `height = bbox[3] - bbox[1]`,
accept iff `area > page_area * min_fraction` and
`area < page_area * max_fraction` (both strict). -/
def acceptFigure (r : Rect) (pageArea minFrac maxFrac : ℚ) : Bool :=
  let area := (r.x1 - r.x0) * (r.y1 - r.y0)
  decide (pageArea * minFrac < area) && decide (area < pageArea * maxFrac)

/-- fitz `Rect.intersects`: true iff the common rectangle
`(max x0, max y0, min x1, min y1)` is non-empty, where a fitz rectangle is
empty when `x0 >= x1` or `y0 >= y1` — i.e. strict overlap on both axes.
Used by `find_surrounding_text` (`ragntex_processing.py:146`). -/
def fitzIntersects (a b : Rect) : Bool :=
  decide (max a.x0 b.x0 < min a.x1 b.x1) && decide (max a.y0 b.y0 < min a.y1 b.y1)

/-- Function `find_surrounding_text` (`ragntex_processing.py:136-149`): keep the
rectangle of every type-0 (text) block that intersects the
threshold-expanded group rectangle.  A block is modelled as its type tag
paired with its bounding rectangle. -/
def find_surrounding_text (textBlocks : List (ℤ × Rect)) (group : Rect)
    (threshold : ℚ) : List Rect :=
  textBlocks.filterMap fun b =>
    if b.1 = 0 && fitzIntersects (expandRect group threshold) b.2 then some b.2
    else none

/-- The figure rectangle built at `ragntex_processing.py:173-176`:
`merge_bounding_boxes([group] + surrounding)` when `surrounding` is
non-empty, else `group` itself (`merge_bounding_boxes` of a non-empty list
is never `None`; `getD` only names that fact). -/
def figureBBox (group : Rect) (surrounding : List Rect) : Rect :=
  if surrounding = [] then group
  else (merge_bounding_boxes (group :: surrounding)).getD group

/-- The per-candidate loop of `extract_vector`
(`ragntex_processing.py:170-192`), with the rendering collaborator
(`page.get_pixmap` + byte production) abstracted as a fallible function
`render`.  Returns the artifacts produced in order, paired with
`some e` if an uncaught render exception aborted the loop (the source has
no `try`/`except`: an exception propagates out of the `for` loop, so no
later candidate is processed). -/
def extract_vector_loop {β : Type} (render : Rect → Except Unit β)
    (textBlocks : List (ℤ × Rect)) (grouped : List Rect)
    (pageArea minFrac maxFrac threshold : ℚ) : List β × Option Unit :=
  match grouped with
  | [] => ([], none)
  | g :: rest =>
    let fb := figureBBox g (find_surrounding_text textBlocks g threshold)
    if acceptFigure fb pageArea minFrac maxFrac then
      match render fb with
      | .error e => ([], some e)
      | .ok a =>
        let r := extract_vector_loop render textBlocks rest pageArea minFrac maxFrac threshold
        (a :: r.1, r.2)
    else
      extract_vector_loop render textBlocks rest pageArea minFrac maxFrac threshold

/-- Python `str.strip()`: remove leading and trailing whitespace (the
ASCII whitespace classes; the exact whitespace set is irrelevant to the
claims). -/
def pyStrip (s : String) : String :=
  ⟨((s.data.dropWhile Char.isWhitespace).reverse.dropWhile
      Char.isWhitespace).reverse⟩

/-- The page-text accumulation of `extract_pdf_ragntex`
(`ragntex_processing.py:16-19`): starting from `text = ""`, each page
performs `text = " ".join([text, page_text.strip()])`, i.e.
`text ++ " " ++ strip(page_text)`. -/
def accumulate_text (pages : List String) : String :=
  pages.foldl (fun t p => t ++ " " ++ pyStrip p) ""

end RagnTex

namespace RagnTex

/-- The adjacency list built at `ragntex_processing.py:87-93`: for each
index `i`, the indices `j ≠ i` whose threshold-expanded rectangle the
spatial index reports as intersecting the threshold-expanded rectangle
`i`.  The traversal order of an rtree query result is unspecified; index
order is used here. -/
def adjListOf (bboxes : List Rect) (threshold : ℚ) :
    Fin bboxes.length → List (Fin bboxes.length) :=
  fun i => (List.finRange bboxes.length).filter
    fun j => decide (i ≠ j) && closeRects threshold (bboxes.get i) (bboxes.get j)

/-- The recursive `dfs` of `ragntex_processing.py:99-104`, with the
implicit call stack made explicit: pop a node; if unvisited, mark it,
append it to the component, and process its neighbours (depth-first, in
adjacency-list order) before the remaining stack.  Returns the component
in visit order together with the updated visited set. -/
def dfsAux {n : ℕ} (adjL : Fin n → List (Fin n)) :
    List (Fin n) → Finset (Fin n) → List (Fin n) → List (Fin n) × Finset (Fin n)
  | [], visited, acc => (acc, visited)
  | node :: stack, visited, acc =>
    if hv : node ∈ visited then
      dfsAux adjL stack visited acc
    else
      dfsAux adjL (adjL node ++ stack) (insert node visited) (acc ++ [node])
termination_by s v _ => ((Finset.univ \ v).card, s.length)
decreasing_by
  · apply Prod.Lex.right
    simp
  · apply Prod.Lex.left
    rw [Finset.sdiff_insert]
    exact Finset.card_erase_lt_of_mem
      (Finset.mem_sdiff.mpr ⟨Finset.mem_univ _, hv⟩)

/-- The outer loop of `ragntex_processing.py:107-111`: every unvisited
index seeds a depth-first search; the resulting component is appended to
the component list, the visited set persists across seeds. -/
def groupAux {n : ℕ} (adjL : Fin n → List (Fin n)) :
    List (Fin n) → Finset (Fin n) → List (List (Fin n)) → List (List (Fin n))
  | [], _, comps => comps
  | i :: rest, visited, comps =>
    if i ∈ visited then
      groupAux adjL rest visited comps
    else
      let r := dfsAux adjL [i] visited []
      groupAux adjL rest r.2 (comps ++ [r.1])

/-- The connected components found by `group_bounding_boxes`, as lists of
indices in visit order.  (The Python `component` list stores
`bboxes[node]` rather than `node`; the index-level structure is the same,
and `group_bounding_boxes` below maps indices back to rectangles.) -/
def componentsIdx (bboxes : List Rect) (threshold : ℚ) :
    List (List (Fin bboxes.length)) :=
  groupAux (adjListOf bboxes threshold) (List.finRange bboxes.length) ∅ []

/-- Function `group_bounding_boxes` (`ragntex_processing.py:80-114`): one merged
rectangle per connected component, in discovery order.  Every component
is non-empty, so `merge_bounding_boxes` is always `some` and `filterMap`
drops nothing (the source's unused `max_drawings` parameter is omitted). -/
def group_bounding_boxes (bboxes : List Rect) (threshold : ℚ) : List Rect :=
  (componentsIdx bboxes threshold).filterMap
    fun comp => merge_bounding_boxes (comp.map fun j => bboxes.get j)

/-- Function `process_large_drawing` (`ragntex_processing.py:117-133`): filter the
drawings (line 118), group directly when the count is strictly below
`max_drawings`, otherwise group `(len / max_drawings) + 1` contiguous
slices `bboxes[k*M : (k+1)*M]` independently and re-group the collected
chunk results once. -/
def process_large_drawing (drawings : List (Option Rect)) (max_drawings : ℕ)
    (threshold : ℚ) : List Rect :=
  let bboxes := filterDrawings drawings
  if bboxes.length < max_drawings then group_bounding_boxes bboxes threshold
  else
    let num_chunks := bboxes.length / max_drawings + 1
    let all_results := (List.range num_chunks).flatMap
      fun k => group_bounding_boxes ((bboxes.drop (k * max_drawings)).take max_drawings) threshold
    group_bounding_boxes all_results threshold

end RagnTex

namespace RagnTex

theorem dfsAux_nil {n : ℕ} (adjL : Fin n → List (Fin n)) (v : Finset (Fin n))
    (acc : List (Fin n)) : dfsAux adjL [] v acc = (acc, v) := by
  rw [dfsAux]

theorem dfsAux_cons_mem {n : ℕ} (adjL : Fin n → List (Fin n))
    (node : Fin n) (st : List (Fin n)) (v : Finset (Fin n)) (acc : List (Fin n))
    (h : node ∈ v) :
    dfsAux adjL (node :: st) v acc = dfsAux adjL st v acc := by
  rw [dfsAux]
  simp [h]

theorem dfsAux_cons_not_mem {n : ℕ} (adjL : Fin n → List (Fin n))
    (node : Fin n) (st : List (Fin n)) (v : Finset (Fin n)) (acc : List (Fin n))
    (h : node ∉ v) :
    dfsAux adjL (node :: st) v acc
      = dfsAux adjL (adjL node ++ st) (insert node v) (acc ++ [node]) := by
  rw [dfsAux]
  simp [h]

/-- The visited set only grows. -/
theorem dfsAux_visited_subset {n : ℕ} (adjL : Fin n → List (Fin n))
    (st : List (Fin n)) (v : Finset (Fin n)) (acc : List (Fin n)) :
    v ⊆ (dfsAux adjL st v acc).2 := by
  induction st, v, acc using dfsAux.induct adjL with
  | case1 v acc => simp [dfsAux_nil]
  | case2 node st v acc h ih =>
    rw [dfsAux_cons_mem adjL node st v acc h]
    exact ih
  | case3 node st v acc h ih =>
    rw [dfsAux_cons_not_mem adjL node st v acc h]
    exact fun x hx => ih (Finset.mem_insert_of_mem hx)

/-- Every node on the stack ends up visited. -/
theorem dfsAux_stack_visited {n : ℕ} (adjL : Fin n → List (Fin n))
    (st : List (Fin n)) (v : Finset (Fin n)) (acc : List (Fin n)) :
    ∀ x ∈ st, x ∈ (dfsAux adjL st v acc).2 := by
  induction st, v, acc using dfsAux.induct adjL with
  | case1 v acc => simp
  | case2 node st v acc h ih =>
    rw [dfsAux_cons_mem adjL node st v acc h]
    intro x hx
    rcases List.mem_cons.mp hx with hx | hx
    · subst hx
      exact dfsAux_visited_subset adjL st v acc h
    · exact ih x hx
  | case3 node st v acc h ih =>
    rw [dfsAux_cons_not_mem adjL node st v acc h]
    intro x hx
    rcases List.mem_cons.mp hx with hx | hx
    · subst hx
      exact dfsAux_visited_subset adjL _ _ _ (Finset.mem_insert_self x v)
    · exact ih x (List.mem_append_right _ hx)

/-- The component accumulator collects exactly the newly visited nodes. -/
theorem dfsAux_mem_fst {n : ℕ} (adjL : Fin n → List (Fin n))
    (st : List (Fin n)) (v : Finset (Fin n)) (acc : List (Fin n)) (x : Fin n) :
    x ∈ (dfsAux adjL st v acc).1
      ↔ x ∈ acc ∨ (x ∈ (dfsAux adjL st v acc).2 ∧ x ∉ v) := by
  induction st, v, acc using dfsAux.induct adjL with
  | case1 v acc => simp [dfsAux_nil]
  | case2 node st v acc h ih =>
    rw [dfsAux_cons_mem adjL node st v acc h]
    exact ih
  | case3 node st v acc h ih =>
    rw [dfsAux_cons_not_mem adjL node st v acc h]
    rw [ih]
    constructor
    · rintro (hx | ⟨hx, hnx⟩)
      · rcases List.mem_append.mp hx with hx | hx
        · exact Or.inl hx
        · have hxn : x = node := by simpa using hx
          subst hxn
          refine Or.inr ⟨?_, h⟩
          exact dfsAux_visited_subset adjL _ _ _ (Finset.mem_insert_self x v)
      · exact Or.inr ⟨hx, fun hv => hnx (Finset.mem_insert_of_mem hv)⟩
    · rintro (hx | ⟨hx, hnx⟩)
      · exact Or.inl (List.mem_append_left _ hx)
      · by_cases hxn : x = node
        · subst hxn
          exact Or.inl (List.mem_append_right _ (by simp))
        · exact Or.inr ⟨hx, by simp [Finset.mem_insert, hxn, hnx]⟩

/-- The component accumulator never repeats a node. -/
theorem dfsAux_nodup {n : ℕ} (adjL : Fin n → List (Fin n))
    (st : List (Fin n)) (v : Finset (Fin n)) (acc : List (Fin n)) :
    acc.Nodup → (∀ x ∈ acc, x ∈ v) → (dfsAux adjL st v acc).1.Nodup := by
  induction st, v, acc using dfsAux.induct adjL with
  | case1 v acc =>
    intro h _
    simpa [dfsAux_nil] using h
  | case2 node st v acc h ih =>
    rw [dfsAux_cons_mem adjL node st v acc h]
    exact ih
  | case3 node st v acc h ih =>
    rw [dfsAux_cons_not_mem adjL node st v acc h]
    intro hnd hsub
    refine ih ?_ ?_
    · simp only [List.nodup_append, List.nodup_cons, List.nodup_nil]
      exact ⟨hnd, by simp, by simp; exact fun hx => h (hsub node hx)⟩
    · intro x hx
      rcases List.mem_append.mp hx with hx | hx
      · exact Finset.mem_insert_of_mem (hsub x hx)
      · have : x = node := by simpa using hx
        subst this
        exact Finset.mem_insert_self x v

/-- Every neighbour of a newly visited node is visited at the end. -/
theorem dfsAux_closed {n : ℕ} (adjL : Fin n → List (Fin n))
    (st : List (Fin n)) (v : Finset (Fin n)) (acc : List (Fin n)) :
    ∀ x, x ∈ (dfsAux adjL st v acc).2 → x ∉ v →
      ∀ y ∈ adjL x, y ∈ (dfsAux adjL st v acc).2 := by
  induction st, v, acc using dfsAux.induct adjL with
  | case1 v acc =>
    intro x hx hnx
    simp only [dfsAux_nil] at hx
    exact absurd hx hnx
  | case2 node st v acc h ih =>
    rw [dfsAux_cons_mem adjL node st v acc h]
    exact ih
  | case3 node st v acc h ih =>
    rw [dfsAux_cons_not_mem adjL node st v acc h]
    intro x hx hnx y hy
    by_cases hxn : x = node
    · subst hxn
      exact dfsAux_stack_visited adjL _ _ _ y (List.mem_append_left _ hy)
    · exact ih x hx (by simp [Finset.mem_insert, hxn, hnx]) y hy

/-- Soundness: newly visited nodes stay inside any adjacency-closed set
containing the stack. -/
theorem dfsAux_sound {n : ℕ} (adjL : Fin n → List (Fin n))
    (S : Set (Fin n)) (hS : ∀ x ∈ S, ∀ y ∈ adjL x, y ∈ S)
    (st : List (Fin n)) (v : Finset (Fin n)) (acc : List (Fin n)) :
    (∀ x ∈ st, x ∈ S) → ∀ x ∈ (dfsAux adjL st v acc).2, x ∈ v ∨ x ∈ S := by
  induction st, v, acc using dfsAux.induct adjL with
  | case1 v acc =>
    intro _ x hx
    simp only [dfsAux_nil] at hx
    exact Or.inl hx
  | case2 node st v acc h ih =>
    rw [dfsAux_cons_mem adjL node st v acc h]
    intro hst
    exact ih fun x hx => hst x (List.mem_cons_of_mem _ hx)
  | case3 node st v acc h ih =>
    rw [dfsAux_cons_not_mem adjL node st v acc h]
    intro hst
    have hnode : node ∈ S := hst node (List.mem_cons_self node st)
    have hst' : ∀ x ∈ adjL node ++ st, x ∈ S := by
      intro x hx
      rcases List.mem_append.mp hx with hx | hx
      · exact hS node hnode x hx
      · exact hst x (List.mem_cons_of_mem _ hx)
    intro x hx
    rcases ih hst' x hx with hxv | hxS
    · rcases Finset.mem_insert.mp hxv with hxn | hxv
      · subst hxn
        exact Or.inr hnode
      · exact Or.inl hxv
    · exact Or.inr hxS

end RagnTex

namespace RagnTex

theorem groupAux_nil {n : ℕ} (adjL : Fin n → List (Fin n)) (v : Finset (Fin n))
    (comps : List (List (Fin n))) : groupAux adjL [] v comps = comps := rfl

theorem groupAux_cons_mem {n : ℕ} (adjL : Fin n → List (Fin n)) (i : Fin n)
    (rest : List (Fin n)) (v : Finset (Fin n)) (comps : List (List (Fin n)))
    (h : i ∈ v) : groupAux adjL (i :: rest) v comps = groupAux adjL rest v comps := by
  rw [groupAux]
  simp [h]

theorem groupAux_cons_not_mem {n : ℕ} (adjL : Fin n → List (Fin n)) (i : Fin n)
    (rest : List (Fin n)) (v : Finset (Fin n)) (comps : List (List (Fin n)))
    (h : i ∉ v) :
    groupAux adjL (i :: rest) v comps
      = groupAux adjL rest (dfsAux adjL [i] v []).2
          (comps ++ [(dfsAux adjL [i] v []).1]) := by
  rw [groupAux]
  simp [h]

/-- Components already accumulated survive to the output. -/
theorem groupAux_mem_of_mem {n : ℕ} (adjL : Fin n → List (Fin n))
    (todo : List (Fin n)) (v : Finset (Fin n)) (comps : List (List (Fin n))) :
    ∀ c ∈ comps, c ∈ groupAux adjL todo v comps := by
  induction todo generalizing v comps with
  | nil =>
    intro c hc
    simpa [groupAux_nil] using hc
  | cons i rest ih =>
    intro c hc
    by_cases h : i ∈ v
    · rw [groupAux_cons_mem adjL i rest v comps h]
      exact ih v comps c hc
    · rw [groupAux_cons_not_mem adjL i rest v comps h]
      exact ih _ _ c (List.mem_append_left _ hc)

/-- Coverage: every index of the worklist not yet visited appears in some
output component. -/
theorem groupAux_cover {n : ℕ} (adjL : Fin n → List (Fin n))
    (todo : List (Fin n)) (v : Finset (Fin n)) (comps : List (List (Fin n))) :
    ∀ i ∈ todo, i ∉ v → i ∈ (groupAux adjL todo v comps).flatten := by
  induction todo generalizing v comps with
  | nil => simp
  | cons i rest ih =>
    intro j hj hjv
    by_cases h : i ∈ v
    · rw [groupAux_cons_mem adjL i rest v comps h]
      rcases List.mem_cons.mp hj with hj | hj
      · subst hj
        exact absurd h hjv
      · exact ih v comps j hj hjv
    · rw [groupAux_cons_not_mem adjL i rest v comps h]
      by_cases hjV : j ∈ (dfsAux adjL [i] v []).2
      · have hjA : j ∈ (dfsAux adjL [i] v []).1 :=
          (dfsAux_mem_fst adjL [i] v [] j).mpr (Or.inr ⟨hjV, hjv⟩)
        have hmem := groupAux_mem_of_mem adjL rest (dfsAux adjL [i] v []).2
          (comps ++ [(dfsAux adjL [i] v []).1]) (dfsAux adjL [i] v []).1
          (List.mem_append_right _ (by simp))
        exact List.mem_flatten.mpr ⟨_, hmem, hjA⟩
      · rcases List.mem_cons.mp hj with hj | hj
        · subst hj
          exact absurd (dfsAux_stack_visited adjL [j] v [] j (by simp)) hjV
        · exact ih _ _ j hj hjV

/-- No index appears twice across (or within) the output components. -/
theorem groupAux_flatten_nodup {n : ℕ} (adjL : Fin n → List (Fin n))
    (todo : List (Fin n)) (v : Finset (Fin n)) (comps : List (List (Fin n))) :
    comps.flatten.Nodup → (∀ x ∈ comps.flatten, x ∈ v) →
      (groupAux adjL todo v comps).flatten.Nodup := by
  induction todo generalizing v comps with
  | nil =>
    intro h _
    simpa [groupAux_nil] using h
  | cons i rest ih =>
    intro hnd hsub
    by_cases h : i ∈ v
    · rw [groupAux_cons_mem adjL i rest v comps h]
      exact ih v comps hnd hsub
    · rw [groupAux_cons_not_mem adjL i rest v comps h]
      refine ih _ _ ?_ ?_
      · rw [List.flatten_append]
        simp only [List.flatten_cons, List.flatten_nil, List.append_nil]
        rw [List.nodup_append]
        refine ⟨hnd, dfsAux_nodup adjL [i] v [] (by simp) (by simp), ?_⟩
        intro x hx hx'
        have hxv : x ∈ v := hsub x hx
        have := (dfsAux_mem_fst adjL [i] v [] x).mp hx'
        simp only [List.not_mem_nil, false_or] at this
        exact this.2 hxv
      · intro x hx
        rw [List.flatten_append] at hx
        rcases List.mem_append.mp hx with hx | hx
        · exact dfsAux_visited_subset adjL [i] v [] (hsub x hx)
        · simp only [List.flatten_cons, List.flatten_nil, List.append_nil] at hx
          exact ((dfsAux_mem_fst adjL [i] v [] x).mp hx).elim
            (by simp) And.left

end RagnTex

namespace RagnTex

/-- Reachability along the proximity graph's adjacency lists. -/
def ReachAdj {n : ℕ} (adjL : Fin n → List (Fin n)) : Fin n → Fin n → Prop :=
  Relation.ReflTransGen fun a b => b ∈ adjL a

/-- With symmetric adjacency, nothing reachable from a fresh seed can
already be visited, provided the visited set is adjacency-closed. -/
theorem reach_not_visited {n : ℕ} (adjL : Fin n → List (Fin n))
    (hsym : ∀ a b, b ∈ adjL a → a ∈ adjL b) (v : Finset (Fin n))
    (hv : ∀ x ∈ v, ∀ y ∈ adjL x, y ∈ v) (i : Fin n) (hi : i ∉ v) :
    ∀ x, ReachAdj adjL i x → x ∉ v := by
  intro x hr
  induction hr with
  | refl => exact hi
  | tail h1 h2 ih =>
    intro hxv
    exact ih (hv _ hxv _ (hsym _ _ h2))

/-- Completeness of one DFS run: everything reachable from a fresh seed is
visited when the run ends. -/
theorem dfs_reach_visited {n : ℕ} (adjL : Fin n → List (Fin n))
    (hsym : ∀ a b, b ∈ adjL a → a ∈ adjL b) (v : Finset (Fin n))
    (hv : ∀ x ∈ v, ∀ y ∈ adjL x, y ∈ v) (i : Fin n) (hi : i ∉ v) :
    ∀ x, ReachAdj adjL i x → x ∈ (dfsAux adjL [i] v []).2 := by
  intro x hr
  induction hr with
  | refl => exact dfsAux_stack_visited adjL [i] v [] i (by simp)
  | tail h1 h2 ih =>
    exact dfsAux_closed adjL [i] v [] _ ih
      (reach_not_visited adjL hsym v hv i hi _ h1) _ h2

/-- Each output component of the grouping loop is exactly a reachability
class of the proximity graph. -/
theorem groupAux_reach {n : ℕ} (adjL : Fin n → List (Fin n))
    (hsym : ∀ a b, b ∈ adjL a → a ∈ adjL b) (todo : List (Fin n)) :
    ∀ (v : Finset (Fin n)) (comps : List (List (Fin n))),
      (∀ x ∈ v, ∀ y ∈ adjL x, y ∈ v) →
      ∀ c ∈ groupAux adjL todo v comps,
        c ∈ comps ∨ ∃ s, ∀ x, x ∈ c ↔ ReachAdj adjL s x := by
  induction todo with
  | nil =>
    intro v comps _ c hc
    exact Or.inl (by simpa [groupAux_nil] using hc)
  | cons i rest ih =>
    intro v comps hv c hc
    by_cases h : i ∈ v
    · rw [groupAux_cons_mem adjL i rest v comps h] at hc
      exact ih v comps hv c hc
    · rw [groupAux_cons_not_mem adjL i rest v comps h] at hc
      have hVclosed : ∀ x ∈ (dfsAux adjL [i] v []).2, ∀ y ∈ adjL x,
          y ∈ (dfsAux adjL [i] v []).2 := by
        intro x hx y hy
        by_cases hxv : x ∈ v
        · exact dfsAux_visited_subset adjL [i] v [] (hv x hxv y hy)
        · exact dfsAux_closed adjL [i] v [] x hx hxv y hy
      rcases ih _ _ hVclosed c hc with hc' | hc'
      · rcases List.mem_append.mp hc' with hc'' | hc''
        · exact Or.inl hc''
        · have hcA : c = (dfsAux adjL [i] v []).1 := by simpa using hc''
          subst hcA
          refine Or.inr ⟨i, fun x => ?_⟩
          rw [dfsAux_mem_fst adjL [i] v [] x]
          simp only [List.not_mem_nil, false_or]
          constructor
          · rintro ⟨hxV, hxv⟩
            have hsound := dfsAux_sound adjL {y | ReachAdj adjL i y}
              (fun a ha b hb => Relation.ReflTransGen.tail ha hb)
              [i] v []
              (fun z hz => by
                have hzi : z = i := by simpa using hz
                subst hzi
                exact Relation.ReflTransGen.refl)
              x hxV
            rcases hsound with hxv' | hx
            · exact absurd hxv' hxv
            · exact hx
          · intro hreach
            exact ⟨dfs_reach_visited adjL hsym v hv i h x hreach,
              reach_not_visited adjL hsym v hv i h x hreach⟩
      · exact Or.inr hc'

end RagnTex

namespace RagnTex

/-- Unfolding of the spatial-index test on the expanded rectangles. -/
theorem closeRects_iff (t : ℚ) (a b : Rect) :
    closeRects t a b = true
      ↔ a.x0 - t ≤ b.x1 + t ∧ b.x0 - t ≤ a.x1 + t
        ∧ a.y0 - t ≤ b.y1 + t ∧ b.y0 - t ≤ a.y1 + t := by
  simp [closeRects, rtreeIntersects, expandRect, and_assoc]

theorem closeRects_symm (t : ℚ) (a b : Rect) :
    closeRects t a b = true → closeRects t b a = true := by
  rw [closeRects_iff, closeRects_iff]
  tauto

theorem closeRects_mono {t1 t2 : ℚ} (h : t1 ≤ t2) (a b : Rect) :
    closeRects t1 a b = true → closeRects t2 a b = true := by
  rw [closeRects_iff, closeRects_iff]
  rintro ⟨h1, h2, h3, h4⟩
  refine ⟨by linarith, by linarith, by linarith, by linarith⟩

theorem mem_adjListOf (bboxes : List Rect) (t : ℚ) (i j : Fin bboxes.length) :
    j ∈ adjListOf bboxes t i
      ↔ i ≠ j ∧ closeRects t (bboxes.get i) (bboxes.get j) = true := by
  simp [adjListOf, List.mem_filter]

theorem adjListOf_symm (bboxes : List Rect) (t : ℚ) (i j : Fin bboxes.length) :
    j ∈ adjListOf bboxes t i → i ∈ adjListOf bboxes t j := by
  rw [mem_adjListOf, mem_adjListOf]
  rintro ⟨hne, hc⟩
  exact ⟨hne.symm, closeRects_symm t _ _ hc⟩

theorem adjListOf_mono (bboxes : List Rect) {t1 t2 : ℚ} (h : t1 ≤ t2)
    (i j : Fin bboxes.length) :
    j ∈ adjListOf bboxes t1 i → j ∈ adjListOf bboxes t2 i := by
  rw [mem_adjListOf, mem_adjListOf]
  rintro ⟨hne, hc⟩
  exact ⟨hne, closeRects_mono h _ _ hc⟩

theorem reachAdj_mono (bboxes : List Rect) {t1 t2 : ℚ} (h : t1 ≤ t2)
    (s x : Fin bboxes.length) :
    ReachAdj (adjListOf bboxes t1) s x → ReachAdj (adjListOf bboxes t2) s x :=
  Relation.ReflTransGen.mono fun a b hb => adjListOf_mono bboxes h a b hb

/-- Every index belongs to some component. -/
theorem componentsIdx_cover (bboxes : List Rect) (t : ℚ)
    (i : Fin bboxes.length) : ∃ c ∈ componentsIdx bboxes t, i ∈ c := by
  have h := groupAux_cover (adjListOf bboxes t) (List.finRange bboxes.length) ∅ []
    i (List.mem_finRange i) (Finset.not_mem_empty i)
  exact List.mem_flatten.mp h

/-- No index appears twice across the components. -/
theorem componentsIdx_flatten_nodup (bboxes : List Rect) (t : ℚ) :
    (componentsIdx bboxes t).flatten.Nodup :=
  groupAux_flatten_nodup (adjListOf bboxes t) (List.finRange bboxes.length) ∅ []
    (by simp) (by simp)

/-- Each component is a reachability class of the proximity graph. -/
theorem componentsIdx_reach (bboxes : List Rect) (t : ℚ) :
    ∀ c ∈ componentsIdx bboxes t,
      ∃ s, ∀ x, x ∈ c ↔ ReachAdj (adjListOf bboxes t) s x := by
  intro c hc
  have h := groupAux_reach (adjListOf bboxes t) (adjListOf_symm bboxes t)
    (List.finRange bboxes.length) ∅ [] (by simp) c hc
  rcases h with h | h
  · exact absurd h (List.not_mem_nil c)
  · exact h

end RagnTex

namespace RagnTex

/-- C2: For every input rectangle list and threshold, the connected
components found by the grouper partition the input indices: the sum of
member counts equals the input length, every index lies in some
component, no index lies in two different components, and no component
repeats an index. -/
theorem grouper_partitions_input (bboxes : List Rect) (t : ℚ) :
    ((componentsIdx bboxes t).map List.length).sum = bboxes.length
    ∧ (∀ i : Fin bboxes.length, ∃ c ∈ componentsIdx bboxes t, i ∈ c)
    ∧ (componentsIdx bboxes t).Pairwise List.Disjoint
    ∧ (∀ c ∈ componentsIdx bboxes t, c.Nodup) := by
  have hnd := componentsIdx_flatten_nodup bboxes t
  have hcov := componentsIdx_cover bboxes t
  have htof : (componentsIdx bboxes t).flatten.toFinset = Finset.univ := by
    apply Finset.eq_univ_iff_forall.mpr
    intro i
    rw [List.mem_toFinset]
    rcases hcov i with ⟨c, hc, hic⟩
    exact List.mem_flatten.mpr ⟨c, hc, hic⟩
  have hlen : (componentsIdx bboxes t).flatten.length = bboxes.length := by
    rw [← List.toFinset_card_of_nodup hnd, htof]
    simp
  refine ⟨?_, hcov, (List.nodup_flatten.mp hnd).2, (List.nodup_flatten.mp hnd).1⟩
  rw [← List.length_flatten]
  exact hlen

/-- C5: For every rectangle list and thresholds `t1 ≤ t2`, every
component produced at threshold `t1` is contained in a single component
produced at `t2`, whose size is at least as large: raising the threshold
only merges components further, it never splits them. -/
theorem grouper_threshold_mono (bboxes : List Rect) (t1 t2 : ℚ) (h : t1 ≤ t2) :
    ∀ c1 ∈ componentsIdx bboxes t1, ∃ c2 ∈ componentsIdx bboxes t2,
      (∀ i ∈ c1, i ∈ c2) ∧ c1.length ≤ c2.length := by
  intro c1 hc1
  rcases componentsIdx_reach bboxes t1 c1 hc1 with ⟨s1, hs1⟩
  have hs1c1 : s1 ∈ c1 := (hs1 s1).mpr Relation.ReflTransGen.refl
  rcases componentsIdx_cover bboxes t2 s1 with ⟨c2, hc2, hs1c2⟩
  rcases componentsIdx_reach bboxes t2 c2 hc2 with ⟨s2, hs2⟩
  have hreach21 : ReachAdj (adjListOf bboxes t2) s2 s1 := (hs2 s1).mp hs1c2
  have hsub : ∀ i ∈ c1, i ∈ c2 := by
    intro i hi
    have h1 : ReachAdj (adjListOf bboxes t1) s1 i := (hs1 i).mp hi
    have h2 : ReachAdj (adjListOf bboxes t2) s1 i := reachAdj_mono bboxes h s1 i h1
    exact (hs2 i).mpr (hreach21.trans h2)
  refine ⟨c2, hc2, hsub, ?_⟩
  have hnd1 : c1.Nodup :=
    (List.nodup_flatten.mp (componentsIdx_flatten_nodup bboxes t1)).1 c1 hc1
  have hnd2 : c2.Nodup :=
    (List.nodup_flatten.mp (componentsIdx_flatten_nodup bboxes t2)).1 c2 hc2
  rw [← List.toFinset_card_of_nodup hnd1, ← List.toFinset_card_of_nodup hnd2]
  exact Finset.card_le_card fun x hx =>
    List.mem_toFinset.mpr (hsub x (List.mem_toFinset.mp hx))

/-- Witness for C5 at a concrete input: two separated unit squares,
thresholds `0 ≤ 1`. -/
theorem grouper_threshold_mono_witness :
    (0 : ℚ) ≤ 1
    ∧ (∀ c1 ∈ componentsIdx [(⟨0, 0, 1, 1⟩ : Rect), ⟨3, 0, 4, 1⟩] 0,
        ∃ c2 ∈ componentsIdx [(⟨0, 0, 1, 1⟩ : Rect), ⟨3, 0, 4, 1⟩] 1,
          (∀ i ∈ c1, i ∈ c2) ∧ c1.length ≤ c2.length) :=
  ⟨by norm_num,
   grouper_threshold_mono [(⟨0, 0, 1, 1⟩ : Rect), ⟨3, 0, 4, 1⟩] 0 1 (by norm_num)⟩

end RagnTex

namespace RagnTex

/-- The adjacency criterion asserted by the spec (§4.1, modelled from the
spec's words, for comparison with the implemented relation): the
edge-to-edge gap between the two original rectangles, on each axis, is
strictly less than the threshold (a negative gap is axis overlap). -/
def specGapAdjacent (t : ℚ) (a b : Rect) : Prop :=
  max (a.x0 - b.x1) (b.x0 - a.x1) < t ∧ max (a.y0 - b.y1) (b.y0 - a.y1) < t

/-- C1 (amended): the proximity graph records an edge between `i` and `j`
iff `i ≠ j` and on each axis the edge-to-edge gap between the original
rectangles is at most `2 * T` — both the inserted and the queried
rectangle are expanded by `T`, and the spatial index counts boundary
contact as intersection, so the combined slack is `2 * T` inclusive, not
the spec's strict `gap < T`. -/
theorem proximity_edge_iff_gap_le_twice_threshold (bboxes : List Rect)
    (t : ℚ) (i j : Fin bboxes.length) :
    j ∈ adjListOf bboxes t i
      ↔ i ≠ j
        ∧ max ((bboxes.get i).x0 - (bboxes.get j).x1)
            ((bboxes.get j).x0 - (bboxes.get i).x1) ≤ 2 * t
        ∧ max ((bboxes.get i).y0 - (bboxes.get j).y1)
            ((bboxes.get j).y0 - (bboxes.get i).y1) ≤ 2 * t := by
  rw [mem_adjListOf, closeRects_iff]
  simp only [max_le_iff]
  constructor
  · rintro ⟨hne, h1, h2, h3, h4⟩
    exact ⟨hne, ⟨by linarith, by linarith⟩, by linarith, by linarith⟩
  · rintro ⟨hne, ⟨h1, h2⟩, h3, h4⟩
    exact ⟨hne, by linarith, by linarith, by linarith, by linarith⟩

/-- C1 counterexample: with threshold 50, two unit-height rectangles at
horizontal gap exactly 50 get an edge (their 50-expanded forms overlap,
since the mutual slack is 100), while the spec's `gap < T` relation says
they must not. -/
theorem proximity_edge_spec_counterexample :
    ((1 : Fin 2) ∈ adjListOf [(⟨0, 0, 1, 1⟩ : Rect), ⟨51, 0, 52, 1⟩] 50 (0 : Fin 2))
    ∧ ¬ specGapAdjacent 50 (⟨0, 0, 1, 1⟩ : Rect) ⟨51, 0, 52, 1⟩ := by
  constructor
  · rw [mem_adjListOf]
    refine ⟨by decide, ?_⟩
    have h0 : ([(⟨0, 0, 1, 1⟩ : Rect), ⟨51, 0, 52, 1⟩]).get (0 : Fin 2)
        = ⟨0, 0, 1, 1⟩ := rfl
    have h1 : ([(⟨0, 0, 1, 1⟩ : Rect), ⟨51, 0, 52, 1⟩]).get (1 : Fin 2)
        = ⟨51, 0, 52, 1⟩ := rfl
    rw [h0, h1, closeRects_iff]
    norm_num
  · rintro ⟨h1, _⟩
    rw [max_lt_iff] at h1
    norm_num at h1

/-- C4: the area filter accepts a candidate iff its area lies strictly
between `min_fraction * page_area` and `max_fraction * page_area`; both
boundary values are rejected, and on the spec's example (page area 1000,
fractions 0.05 and 0.30) areas 49, 50 and 300 are rejected while 51 is
accepted. -/
theorem figure_filter_strict_bounds :
    (∀ (r : Rect) (pageArea minFrac maxFrac : ℚ),
      acceptFigure r pageArea minFrac maxFrac = true
        ↔ minFrac * pageArea < (r.x1 - r.x0) * (r.y1 - r.y0)
          ∧ (r.x1 - r.x0) * (r.y1 - r.y0) < maxFrac * pageArea)
    ∧ acceptFigure ⟨0, 0, 49, 1⟩ 1000 (5/100) (30/100) = false
    ∧ acceptFigure ⟨0, 0, 50, 1⟩ 1000 (5/100) (30/100) = false
    ∧ acceptFigure ⟨0, 0, 51, 1⟩ 1000 (5/100) (30/100) = true
    ∧ acceptFigure ⟨0, 0, 300, 1⟩ 1000 (5/100) (30/100) = false := by
  refine ⟨?_, ?_, ?_, ?_, ?_⟩
  · intro r pageArea minFrac maxFrac
    simp only [acceptFigure, Bool.and_eq_true, decide_eq_true_eq]
    rw [mul_comm pageArea minFrac, mul_comm maxFrac pageArea]
  · rw [Bool.eq_false_iff]
    simp only [acceptFigure, Ne, Bool.and_eq_true, decide_eq_true_eq]
    rintro ⟨h1, _⟩
    norm_num at h1
  · rw [Bool.eq_false_iff]
    simp only [acceptFigure, Ne, Bool.and_eq_true, decide_eq_true_eq]
    rintro ⟨h1, _⟩
    norm_num at h1
  · simp only [acceptFigure, Bool.and_eq_true, decide_eq_true_eq]
    refine ⟨by norm_num, by norm_num⟩
  · rw [Bool.eq_false_iff]
    simp only [acceptFigure, Ne, Bool.and_eq_true, decide_eq_true_eq]
    rintro ⟨_, h2⟩
    norm_num at h2

/-- C10: `merge_bounding_boxes` returns `None` exactly on the empty list;
on a non-empty list it is the left fold of the rectangle union starting
from the first element, so callers receive a rectangle iff the input is
non-empty. -/
theorem merge_none_iff_empty :
    merge_bounding_boxes [] = (none : Option Rect)
    ∧ (∀ (b : Rect) (bs : List Rect),
        merge_bounding_boxes (b :: bs) = some (bs.foldl Rect.union b))
    ∧ ∀ l : List Rect, (merge_bounding_boxes l).isSome ↔ l ≠ [] := by
  refine ⟨rfl, fun b bs => rfl, ?_⟩
  intro l
  cases l <;> simp [merge_bounding_boxes]

end RagnTex

namespace RagnTex

/-- Containment of `b` in `r` in the union sense: the extent of `r` covers that of `b`. -/
def Rect.containsRect (r b : Rect) : Prop :=
  r.x0 ≤ b.x0 ∧ r.y0 ≤ b.y0 ∧ b.x1 ≤ r.x1 ∧ b.y1 ≤ r.y1

/-- The point `(px, py)` lies inside `r`. -/
def Rect.containsPoint (r : Rect) (px py : ℚ) : Prop :=
  r.x0 ≤ px ∧ px ≤ r.x1 ∧ r.y0 ≤ py ∧ py ≤ r.y1

theorem containsRect_refl (a : Rect) : a.containsRect a :=
  ⟨le_refl _, le_refl _, le_refl _, le_refl _⟩

theorem containsRect_trans {a b c : Rect} (h1 : a.containsRect b)
    (h2 : b.containsRect c) : a.containsRect c := by
  obtain ⟨p1, p2, p3, p4⟩ := h1
  obtain ⟨q1, q2, q3, q4⟩ := h2
  exact ⟨by linarith, by linarith, by linarith, by linarith⟩

/-- Characterization of non-emptiness in the fitz sense. -/
theorem is_empty_false_iff (r : Rect) :
    r.is_empty = false ↔ r.x0 < r.x1 ∧ r.y0 < r.y1 := by
  simp [Rect.is_empty, not_le]

/-- On two non-empty rectangles the fitz union is the componentwise
min/max enclosing rectangle. -/
theorem union_eval (a b : Rect) (ha : a.is_empty = false)
    (hb : b.is_empty = false) :
    a.union b = ⟨min a.x0 b.x0, min a.y0 b.y0, max a.x1 b.x1, max a.y1 b.y1⟩ := by
  rw [Rect.union, if_neg (by simp [hb]), if_neg (by simp [ha])]

theorem union_containsRect_left (a b : Rect) (ha : a.is_empty = false) :
    (a.union b).containsRect a := by
  rw [Rect.union]
  by_cases hb : b.is_empty = true
  · rw [if_pos hb]
    exact containsRect_refl a
  · rw [if_neg hb, if_neg (by simp [ha])]
    exact ⟨min_le_left _ _, min_le_left _ _, le_max_left _ _, le_max_left _ _⟩

theorem union_containsRect_right (a b : Rect) (hb : b.is_empty = false) :
    (a.union b).containsRect b := by
  rw [Rect.union, if_neg (by simp [hb])]
  by_cases ha : a.is_empty = true
  · rw [if_pos ha]
    exact containsRect_refl b
  · rw [if_neg ha]
    exact ⟨min_le_right _ _, min_le_right _ _, le_max_right _ _, le_max_right _ _⟩

/-- A rectangle containing a non-empty rectangle is itself non-empty. -/
theorem contains_not_empty {r m : Rect} (h : r.containsRect m)
    (hm : m.is_empty = false) : r.is_empty = false := by
  rw [is_empty_false_iff] at *
  obtain ⟨p1, p2, p3, p4⟩ := h
  obtain ⟨q1, q2⟩ := hm
  exact ⟨by linarith, by linarith⟩

/-- The running fitz union contains its seed and every folded element
that is non-empty; empty rectangles are ignored by the union and carry
no such guarantee. -/
theorem foldl_union_containsRect (l : List Rect) :
    ∀ a : Rect,
      (a.is_empty = false → (l.foldl Rect.union a).containsRect a)
      ∧ ∀ b ∈ l, b.is_empty = false → (l.foldl Rect.union a).containsRect b := by
  induction l with
  | nil =>
    intro a
    exact ⟨fun _ => containsRect_refl a, by simp⟩
  | cons c l ih =>
    intro a
    have h := ih (a.union c)
    simp only [List.foldl_cons]
    constructor
    · intro ha
      have h1 : (a.union c).containsRect a := union_containsRect_left a c ha
      exact containsRect_trans (h.1 (contains_not_empty h1 ha)) h1
    · intro b hb hbne
      rcases List.mem_cons.mp hb with hb | hb
      · subst hb
        have h1 : (a.union b).containsRect b := union_containsRect_right a b hbne
        exact containsRect_trans (h.1 (contains_not_empty h1 hbne)) h1
      · exact h.2 b hb hbne

theorem merge_containsRect (comp : List Rect) (m : Rect)
    (hm : merge_bounding_boxes comp = some m) :
    ∀ b ∈ comp, b.is_empty = false → m.containsRect b := by
  cases comp with
  | nil => simp [merge_bounding_boxes] at hm
  | cons c cs =>
    simp only [merge_bounding_boxes, Option.some.injEq] at hm
    subst hm
    intro b hb hbne
    rcases List.mem_cons.mp hb with hb | hb
    · subst hb
      exact (foldl_union_containsRect cs b).1 hbne
    · exact (foldl_union_containsRect cs c).2 b hb hbne

theorem containsRect_corners {r b : Rect} (h : r.containsRect b)
    (hx : b.x0 ≤ b.x1) (hy : b.y0 ≤ b.y1) :
    r.containsPoint b.x0 b.y0 ∧ r.containsPoint b.x1 b.y0
      ∧ r.containsPoint b.x0 b.y1 ∧ r.containsPoint b.x1 b.y1 := by
  obtain ⟨p1, p2, p3, p4⟩ := h
  refine ⟨⟨by linarith, by linarith, by linarith, by linarith⟩,
    ⟨by linarith, by linarith, by linarith, by linarith⟩,
    ⟨by linarith, by linarith, by linarith, by linarith⟩,
    ⟨by linarith, by linarith, by linarith, by linarith⟩⟩

/-- C6 (amended): the merged rectangle of a component contains every
member that is non-empty in the fitz sense (`x0 < x1` and `y0 < y1`) —
including all four of its corners — and the final figure rectangle
contains the group rectangle and every associated text block folded into
it, again when these are non-empty.  Empty (degenerate) rectangles are
ignored by the fitz `|` operator and may lie outside the merged
rectangle. -/
theorem union_superset_members (comp : List Rect) (m : Rect)
    (hm : merge_bounding_boxes comp = some m)
    (g : Rect) (surrounding : List Rect) :
    (∀ b ∈ comp, b.is_empty = false →
      m.containsRect b
      ∧ (m.containsPoint b.x0 b.y0 ∧ m.containsPoint b.x1 b.y0
          ∧ m.containsPoint b.x0 b.y1 ∧ m.containsPoint b.x1 b.y1))
    ∧ (g.is_empty = false → (figureBBox g surrounding).containsRect g)
    ∧ ∀ tb ∈ surrounding, tb.is_empty = false →
        (figureBBox g surrounding).containsRect tb := by
  refine ⟨?_, ?_, ?_⟩
  · intro b hb hbne
    have hc := merge_containsRect comp m hm b hb hbne
    obtain ⟨hx, hy⟩ := (is_empty_false_iff b).mp hbne
    exact ⟨hc, containsRect_corners hc (le_of_lt hx) (le_of_lt hy)⟩
  · intro hgne
    rw [figureBBox]
    by_cases hs : surrounding = []
    · simp [hs, containsRect_refl]
    · simp only [hs, if_false, merge_bounding_boxes, Option.getD_some]
      exact (foldl_union_containsRect surrounding g).1 hgne
  · intro tb htb htbne
    rw [figureBBox]
    have hs : surrounding ≠ [] := by
      intro h
      rw [h] at htb
      exact List.not_mem_nil tb htb
    simp only [hs, if_false, merge_bounding_boxes, Option.getD_some]
    exact (foldl_union_containsRect surrounding g).2 tb htb htbne

/-- Witness for the amended C6 at a concrete input: the component
`[(0,0,1,1), (2,2,3,3)]` of non-empty rectangles merges to `(0,0,3,3)`,
which contains the first member and its corners; the figure rectangle
for group `(0,0,1,1)` with one surrounding text block `(2,2,3,3)`
contains both. -/
theorem union_superset_members_witness :
    merge_bounding_boxes [(⟨0, 0, 1, 1⟩ : Rect), ⟨2, 2, 3, 3⟩]
        = some (⟨0, 0, 3, 3⟩ : Rect)
    ∧ (⟨0, 0, 1, 1⟩ : Rect) ∈ [(⟨0, 0, 1, 1⟩ : Rect), ⟨2, 2, 3, 3⟩]
    ∧ (⟨0, 0, 1, 1⟩ : Rect).is_empty = false
    ∧ ((⟨0, 0, 3, 3⟩ : Rect).containsRect ⟨0, 0, 1, 1⟩
        ∧ ((⟨0, 0, 3, 3⟩ : Rect).containsPoint 0 0
            ∧ (⟨0, 0, 3, 3⟩ : Rect).containsPoint 1 0
            ∧ (⟨0, 0, 3, 3⟩ : Rect).containsPoint 0 1
            ∧ (⟨0, 0, 3, 3⟩ : Rect).containsPoint 1 1))
    ∧ (figureBBox ⟨0, 0, 1, 1⟩ [⟨2, 2, 3, 3⟩]).containsRect ⟨0, 0, 1, 1⟩
    ∧ (figureBBox ⟨0, 0, 1, 1⟩ [⟨2, 2, 3, 3⟩]).containsRect ⟨2, 2, 3, 3⟩ := by
  have hne1 : (⟨0, 0, 1, 1⟩ : Rect).is_empty = false := by
    rw [is_empty_false_iff]
    norm_num
  have hne2 : (⟨2, 2, 3, 3⟩ : Rect).is_empty = false := by
    rw [is_empty_false_iff]
    norm_num
  have hm : merge_bounding_boxes [(⟨0, 0, 1, 1⟩ : Rect), ⟨2, 2, 3, 3⟩]
      = some (⟨0, 0, 3, 3⟩ : Rect) := by
    simp only [merge_bounding_boxes, List.foldl_cons, List.foldl_nil,
      union_eval (⟨0, 0, 1, 1⟩ : Rect) ⟨2, 2, 3, 3⟩ hne1 hne2,
      Option.some.injEq]
    norm_num [Rect.mk.injEq, min_def, max_def]
  have happ := union_superset_members [(⟨0, 0, 1, 1⟩ : Rect), ⟨2, 2, 3, 3⟩]
    ⟨0, 0, 3, 3⟩ hm ⟨0, 0, 1, 1⟩ [⟨2, 2, 3, 3⟩]
  exact ⟨hm, by simp, hne1,
    happ.1 ⟨0, 0, 1, 1⟩ (by simp) hne1,
    happ.2.1 hne1,
    happ.2.2 ⟨2, 2, 3, 3⟩ (by simp) hne2⟩

/-- C6 counterexample: `merge_bounding_boxes` on the component
`[(0,0,1,1), (10,10,20,10)]` returns `(0,0,1,1)` — the fitz `|` ignores
the second member because its extent is degenerate (`y0 = y1`), even
though it is ordered (`left ≤ right`, `top ≤ bottom`) as the spec's data
model requires — so the merged rectangle does not contain that member,
and the member's corner `(10,10)` lies outside it. -/
theorem union_superset_counterexample :
    merge_bounding_boxes [(⟨0, 0, 1, 1⟩ : Rect), ⟨10, 10, 20, 10⟩]
        = some (⟨0, 0, 1, 1⟩ : Rect)
    ∧ ¬ (⟨0, 0, 1, 1⟩ : Rect).containsRect ⟨10, 10, 20, 10⟩
    ∧ ¬ (⟨0, 0, 1, 1⟩ : Rect).containsPoint 10 10
    ∧ (10 : ℚ) ≤ 20 ∧ (10 : ℚ) ≤ 10 := by
  have hemp : (⟨10, 10, 20, 10⟩ : Rect).is_empty = true := by
    rw [Rect.is_empty, Bool.or_eq_true]
    right
    rw [decide_eq_true_eq]
  refine ⟨?_, ?_, ?_, by norm_num, le_refl _⟩
  · simp only [merge_bounding_boxes, List.foldl_cons, List.foldl_nil]
    rw [Rect.union, if_pos hemp]
  · rintro ⟨_, _, h3, _⟩
    norm_num at h3
  · rintro ⟨_, h2, _⟩
    norm_num at h2

end RagnTex

namespace RagnTex

/-- C7 (amended): when the render collaborator fails on an accepted
candidate, the exception aborts the page's extraction loop — no artifact
is produced for that candidate or for any remaining candidate, and the
failure propagates out of the loop instead of being recovered locally. -/
theorem render_failure_aborts_loop {β : Type} (render : Rect → Except Unit β)
    (textBlocks : List (ℤ × Rect)) (g : Rect) (rest : List Rect)
    (pageArea minFrac maxFrac threshold : ℚ) (e : Unit)
    (haccept : acceptFigure (figureBBox g (find_surrounding_text textBlocks g threshold))
        pageArea minFrac maxFrac = true)
    (hrender : render (figureBBox g (find_surrounding_text textBlocks g threshold))
        = .error e) :
    extract_vector_loop render textBlocks (g :: rest) pageArea minFrac maxFrac threshold
      = ([], some e) := by
  rw [extract_vector_loop]
  simp only [haccept, if_true, hrender]

/-- Witness for C7's amended statement: a single accepted candidate whose
rendering always fails yields no artifacts and a propagated error. -/
theorem render_failure_aborts_loop_witness :
    acceptFigure
        (figureBBox ⟨0, 0, 10, 10⟩ (find_surrounding_text [] ⟨0, 0, 10, 10⟩ 5))
        1000 (5/100) (30/100) = true
    ∧ extract_vector_loop (fun _ => (Except.error () : Except Unit Rect)) []
        [⟨0, 0, 10, 10⟩] 1000 (5/100) (30/100) 5 = ([], some ()) := by
  have hacc : acceptFigure
      (figureBBox ⟨0, 0, 10, 10⟩ (find_surrounding_text [] ⟨0, 0, 10, 10⟩ 5))
      1000 (5/100) (30/100) = true := by
    have hfb : figureBBox ⟨0, 0, 10, 10⟩ (find_surrounding_text [] ⟨0, 0, 10, 10⟩ 5)
        = ⟨0, 0, 10, 10⟩ := rfl
    rw [hfb]
    simp only [acceptFigure, Bool.and_eq_true, decide_eq_true_eq]
    refine ⟨by norm_num, by norm_num⟩
  exact ⟨hacc, render_failure_aborts_loop (fun _ => (Except.error () : Except Unit Rect))
    [] ⟨0, 0, 10, 10⟩ [] 1000 (5/100) (30/100) 5 () hacc rfl⟩

/-- C7 counterexample: two accepted candidates; rendering fails on the
first and would succeed on the second.  The loop returns no artifact at
all and propagates the error — the claim's predicted outcome (skip the
failing candidate, produce the second artifact, no abort) does not
happen. -/
theorem render_failure_counterexample :
    extract_vector_loop
        (fun r => if r = (⟨0, 0, 10, 10⟩ : Rect) then Except.error () else Except.ok r)
        [] [⟨0, 0, 10, 10⟩, ⟨0, 0, 20, 5⟩] 1000 (5/100) (30/100) 5 = ([], some ())
    ∧ (fun r => if r = (⟨0, 0, 10, 10⟩ : Rect) then Except.error () else Except.ok r)
        (figureBBox ⟨0, 0, 20, 5⟩ (find_surrounding_text [] ⟨0, 0, 20, 5⟩ 5))
        = Except.ok ⟨0, 0, 20, 5⟩
    ∧ acceptFigure
        (figureBBox ⟨0, 0, 20, 5⟩ (find_surrounding_text [] ⟨0, 0, 20, 5⟩ 5))
        1000 (5/100) (30/100) = true := by
  have hfb1 : figureBBox ⟨0, 0, 10, 10⟩ (find_surrounding_text [] ⟨0, 0, 10, 10⟩ 5)
      = ⟨0, 0, 10, 10⟩ := rfl
  have hacc1 : acceptFigure (⟨0, 0, 10, 10⟩ : Rect) 1000 (5/100) (30/100) = true := by
    simp only [acceptFigure, Bool.and_eq_true, decide_eq_true_eq]
    refine ⟨by norm_num, by norm_num⟩
  have hacc2 : acceptFigure (⟨0, 0, 20, 5⟩ : Rect) 1000 (5/100) (30/100) = true := by
    simp only [acceptFigure, Bool.and_eq_true, decide_eq_true_eq]
    refine ⟨by norm_num, by norm_num⟩
  refine ⟨?_, ?_, ?_⟩
  · rw [extract_vector_loop]
    simp only [hfb1, hacc1, if_true, if_pos rfl]
  · have hfb2 : figureBBox ⟨0, 0, 20, 5⟩ (find_surrounding_text [] ⟨0, 0, 20, 5⟩ 5)
        = ⟨0, 0, 20, 5⟩ := rfl
    rw [hfb2]
    have hne : (⟨0, 0, 20, 5⟩ : Rect) ≠ ⟨0, 0, 10, 10⟩ := by
      simp only [Ne, Rect.mk.injEq, not_and]
      intro _ _ h
      norm_num at h
    simp only [if_neg hne]
  · have hfb2 : figureBBox ⟨0, 0, 20, 5⟩ (find_surrounding_text [] ⟨0, 0, 20, 5⟩ 5)
        = ⟨0, 0, 20, 5⟩ := rfl
    rw [hfb2]
    exact hacc2

end RagnTex

namespace RagnTex

/-- C8 (amended): the drawing filter at the entry of
`process_large_drawing` excludes exactly the drawings with a missing
rectangle and those whose rectangle is the all-zero rectangle (the only
falsy `fitz.Rect`); every other drawing — including one with inverted or
degenerate non-zero extent — is kept for grouping, and surrounding
drawings are unaffected (a pure filter, no abort). -/
theorem filter_drawings_keeps_nonzero :
    (∀ ds : List (Option Rect),
      filterDrawings ds = ds.reduceOption.filter fun r => decide (r ≠ zeroRect))
    ∧ ∀ (ds : List (Option Rect)) (r : Rect),
        r ∈ filterDrawings ds ↔ some r ∈ ds ∧ r ≠ zeroRect := by
  have h1 : ∀ ds : List (Option Rect),
      filterDrawings ds = ds.reduceOption.filter fun r => decide (r ≠ zeroRect) := by
    intro ds
    induction ds with
    | nil => rfl
    | cons d ds ih =>
      cases d with
      | none =>
        rw [filterDrawings, List.filterMap_cons] at *
        simpa [List.reduceOption] using ih
      | some r =>
        rw [filterDrawings, List.filterMap_cons] at *
        by_cases hr : r = zeroRect
        · subst hr
          simpa [List.reduceOption] using ih
        · simpa [List.reduceOption, hr] using ih
  refine ⟨h1, ?_⟩
  intro ds r
  rw [h1 ds, List.mem_filter, List.reduceOption_mem_iff]
  simp

/-- C8 counterexample: a drawing whose rectangle has inverted extent
(`left > right`) is not excluded — it survives the input filter and so
participates in grouping, contrary to the claim. -/
theorem inverted_rect_not_excluded :
    filterDrawings [some ⟨5, 0, 0, 1⟩] = [⟨5, 0, 0, 1⟩]
    ∧ (⟨5, 0, 0, 1⟩ : Rect) ∈ filterDrawings [some ⟨5, 0, 0, 1⟩]
    ∧ (5 : ℚ) > 0 := by
  have hne : (⟨5, 0, 0, 1⟩ : Rect) ≠ zeroRect := by
    simp only [zeroRect, Ne, Rect.mk.injEq, not_and]
    intro h
    norm_num at h
  have h : filterDrawings [some ⟨5, 0, 0, 1⟩] = [⟨5, 0, 0, 1⟩] := by
    rw [filterDrawings, List.filterMap_cons]
    simp [hne]
  exact ⟨h, by rw [h]; simp, by norm_num⟩

/-- Shifting the fold seed out of the page-text accumulation. -/
theorem accumulate_text_aux (pages : List String) :
    ∀ s : String, pages.foldl (fun t p => t ++ " " ++ pyStrip p) s
      = s ++ String.join (pages.map fun p => " " ++ pyStrip p) := by
  induction pages with
  | nil =>
    intro s
    apply String.ext
    simp [String.join_eq]
  | cons p ps ih =>
    intro s
    simp only [List.foldl_cons, List.map_cons]
    rw [ih (s ++ " " ++ pyStrip p)]
    apply String.ext
    simp [String.join_eq, String.data_append]

/-- C9 (amended): the text artifact equals the concatenation, in page
order, of one separator followed by the page's stripped text — every
page's text is preceded by exactly one separator, including the first
(the accumulator starts at `""` and `" ".join` always inserts the
separator), so pages are separated by single separators but the whole
text carries a leading separator. -/
theorem accumulate_text_leading_separator (pages : List String) :
    accumulate_text pages = String.join (pages.map fun p => " " ++ pyStrip p) := by
  rw [accumulate_text, accumulate_text_aux pages ("")]
  apply String.ext
  simp [String.data_append]

/-- C9 counterexample: for two pages with texts `"a"` and `"b"` the
artifact is `" a b"`, not the claim's `"a b"` — a separator precedes the
first page's text. -/
theorem accumulate_text_counterexample :
    accumulate_text ["a", "b"] = " a b"
    ∧ accumulate_text ["a", "b"] ≠ "a b" := by
  have h : accumulate_text ["a", "b"] = " a b" := by
    rw [accumulate_text]
    rfl
  refine ⟨h, ?_⟩
  rw [h]
  intro hcontra
  have := congrArg String.data hcontra
  simp at this

end RagnTex

namespace RagnTex

/-- Evaluation of one DFS-grouping run on a two-node graph whose nodes
are mutually adjacent: one component holding both nodes. -/
theorem groupAux_eval_pair (adjL : Fin 2 → List (Fin 2))
    (h0 : adjL 0 = [1]) (h1 : adjL 1 = [0]) :
    groupAux adjL [0, 1] ∅ [] = [[0, 1]] := by
  have hd : dfsAux adjL [0] ∅ [] = ([0, 1], insert 1 (insert 0 ∅)) := by
    rw [dfsAux_cons_not_mem adjL 0 [] ∅ [] (by decide), h0]
    simp only [List.nil_append, List.append_nil]
    rw [dfsAux_cons_not_mem adjL 1 [] (insert 0 ∅) [0] (by decide), h1]
    simp only [List.append_nil, List.cons_append, List.nil_append]
    rw [dfsAux_cons_mem adjL 0 [] (insert 1 (insert 0 ∅)) [0, 1] (by decide)]
    rw [dfsAux_nil]
  rw [groupAux_cons_not_mem adjL 0 [1] ∅ [] (by decide), hd]
  simp only [List.nil_append]
  rw [groupAux_cons_mem adjL 1 [] (insert 1 (insert 0 ∅)) [[0, 1]] (by decide)]
  rw [groupAux_nil]

/-- Evaluation of one DFS-grouping run on the three-node graph where
nodes 0 and 1 are mutually adjacent and node 2 is isolated: components
`[0, 1]` and `[2]`. -/
theorem groupAux_eval_L (adjL : Fin 3 → List (Fin 3))
    (h0 : adjL 0 = [1]) (h1 : adjL 1 = [0]) (h2 : adjL 2 = []) :
    groupAux adjL [0, 1, 2] ∅ [] = [[0, 1], [2]] := by
  have hd : dfsAux adjL [0] ∅ [] = ([0, 1], insert 1 (insert 0 ∅)) := by
    rw [dfsAux_cons_not_mem adjL 0 [] ∅ [] (by decide), h0]
    simp only [List.nil_append, List.append_nil]
    rw [dfsAux_cons_not_mem adjL 1 [] (insert 0 ∅) [0] (by decide), h1]
    simp only [List.append_nil, List.cons_append, List.nil_append]
    rw [dfsAux_cons_mem adjL 0 [] (insert 1 (insert 0 ∅)) [0, 1] (by decide)]
    rw [dfsAux_nil]
  have hd2 : dfsAux adjL [2] (insert 1 (insert 0 ∅)) []
      = ([2], insert 2 (insert 1 (insert 0 ∅))) := by
    rw [dfsAux_cons_not_mem adjL 2 [] (insert 1 (insert 0 ∅)) [] (by decide), h2]
    simp only [List.nil_append]
    rw [dfsAux_nil]
  rw [groupAux_cons_not_mem adjL 0 [1, 2] ∅ [] (by decide), hd]
  simp only [List.nil_append]
  rw [groupAux_cons_mem adjL 1 [2] (insert 1 (insert 0 ∅)) [[0, 1]] (by decide)]
  rw [groupAux_cons_not_mem adjL 2 [] (insert 1 (insert 0 ∅)) [[0, 1]] (by decide), hd2]
  simp only [List.cons_append, List.nil_append]
  rw [groupAux_nil]

end RagnTex

namespace RagnTex

theorem adjL3_eval0 :
    adjListOf [(⟨0, 0, 4, 2⟩ : Rect), ⟨0, 1, 2, 5⟩, ⟨3, 3, 4, 4⟩] 0 ⟨0, by norm_num⟩
      = [⟨1, by norm_num⟩] := by
  have hg0 : ([(⟨0, 0, 4, 2⟩ : Rect), ⟨0, 1, 2, 5⟩, ⟨3, 3, 4, 4⟩]).get ⟨0, by norm_num⟩
      = ⟨0, 0, 4, 2⟩ := rfl
  have hg1 : ([(⟨0, 0, 4, 2⟩ : Rect), ⟨0, 1, 2, 5⟩, ⟨3, 3, 4, 4⟩]).get ⟨1, by norm_num⟩
      = ⟨0, 1, 2, 5⟩ := rfl
  have hg2 : ([(⟨0, 0, 4, 2⟩ : Rect), ⟨0, 1, 2, 5⟩, ⟨3, 3, 4, 4⟩]).get ⟨2, by norm_num⟩
      = ⟨3, 3, 4, 4⟩ := rfl
  have hab : closeRects 0 (⟨0, 0, 4, 2⟩ : Rect) ⟨0, 1, 2, 5⟩ = true := by
    rw [closeRects_iff]
    norm_num
  have hac : closeRects 0 (⟨0, 0, 4, 2⟩ : Rect) ⟨3, 3, 4, 4⟩ = false := by
    rw [Bool.eq_false_iff, Ne, closeRects_iff]
    rintro ⟨_, _, _, h4⟩
    norm_num at h4
  simp only [adjListOf]
  rw [show List.finRange
        (List.length [(⟨0, 0, 4, 2⟩ : Rect), ⟨0, 1, 2, 5⟩, ⟨3, 3, 4, 4⟩])
      = [⟨0, by norm_num⟩, ⟨1, by norm_num⟩, ⟨2, by norm_num⟩] from by decide]
  simp only [List.filter_cons, List.filter_nil, hg0, hg1, hg2, hab, hac]
  simp +decide only [Bool.and_true, Bool.and_false]

theorem adjL3_eval1 :
    adjListOf [(⟨0, 0, 4, 2⟩ : Rect), ⟨0, 1, 2, 5⟩, ⟨3, 3, 4, 4⟩] 0 ⟨1, by norm_num⟩
      = [⟨0, by norm_num⟩] := by
  have hg0 : ([(⟨0, 0, 4, 2⟩ : Rect), ⟨0, 1, 2, 5⟩, ⟨3, 3, 4, 4⟩]).get ⟨0, by norm_num⟩
      = ⟨0, 0, 4, 2⟩ := rfl
  have hg1 : ([(⟨0, 0, 4, 2⟩ : Rect), ⟨0, 1, 2, 5⟩, ⟨3, 3, 4, 4⟩]).get ⟨1, by norm_num⟩
      = ⟨0, 1, 2, 5⟩ := rfl
  have hg2 : ([(⟨0, 0, 4, 2⟩ : Rect), ⟨0, 1, 2, 5⟩, ⟨3, 3, 4, 4⟩]).get ⟨2, by norm_num⟩
      = ⟨3, 3, 4, 4⟩ := rfl
  have hba : closeRects 0 (⟨0, 1, 2, 5⟩ : Rect) ⟨0, 0, 4, 2⟩ = true := by
    rw [closeRects_iff]
    norm_num
  have hbc : closeRects 0 (⟨0, 1, 2, 5⟩ : Rect) ⟨3, 3, 4, 4⟩ = false := by
    rw [Bool.eq_false_iff, Ne, closeRects_iff]
    rintro ⟨_, h2, _, _⟩
    norm_num at h2
  simp only [adjListOf]
  rw [show List.finRange
        (List.length [(⟨0, 0, 4, 2⟩ : Rect), ⟨0, 1, 2, 5⟩, ⟨3, 3, 4, 4⟩])
      = [⟨0, by norm_num⟩, ⟨1, by norm_num⟩, ⟨2, by norm_num⟩] from by decide]
  simp only [List.filter_cons, List.filter_nil, hg0, hg1, hg2, hba, hbc]
  simp +decide only [Bool.and_true, Bool.and_false]

theorem adjL3_eval2 :
    adjListOf [(⟨0, 0, 4, 2⟩ : Rect), ⟨0, 1, 2, 5⟩, ⟨3, 3, 4, 4⟩] 0 ⟨2, by norm_num⟩
      = [] := by
  have hg0 : ([(⟨0, 0, 4, 2⟩ : Rect), ⟨0, 1, 2, 5⟩, ⟨3, 3, 4, 4⟩]).get ⟨0, by norm_num⟩
      = ⟨0, 0, 4, 2⟩ := rfl
  have hg1 : ([(⟨0, 0, 4, 2⟩ : Rect), ⟨0, 1, 2, 5⟩, ⟨3, 3, 4, 4⟩]).get ⟨1, by norm_num⟩
      = ⟨0, 1, 2, 5⟩ := rfl
  have hg2 : ([(⟨0, 0, 4, 2⟩ : Rect), ⟨0, 1, 2, 5⟩, ⟨3, 3, 4, 4⟩]).get ⟨2, by norm_num⟩
      = ⟨3, 3, 4, 4⟩ := rfl
  have hca : closeRects 0 (⟨3, 3, 4, 4⟩ : Rect) ⟨0, 0, 4, 2⟩ = false := by
    rw [Bool.eq_false_iff, Ne, closeRects_iff]
    rintro ⟨_, _, h3, _⟩
    norm_num at h3
  have hcb : closeRects 0 (⟨3, 3, 4, 4⟩ : Rect) ⟨0, 1, 2, 5⟩ = false := by
    rw [Bool.eq_false_iff, Ne, closeRects_iff]
    rintro ⟨h1, _, _, _⟩
    norm_num at h1
  simp only [adjListOf]
  rw [show List.finRange
        (List.length [(⟨0, 0, 4, 2⟩ : Rect), ⟨0, 1, 2, 5⟩, ⟨3, 3, 4, 4⟩])
      = [⟨0, by norm_num⟩, ⟨1, by norm_num⟩, ⟨2, by norm_num⟩] from by decide]
  simp only [List.filter_cons, List.filter_nil, hg0, hg1, hg2, hca, hcb]
  simp +decide only [Bool.and_true, Bool.and_false]

theorem comps3_eval :
    componentsIdx [(⟨0, 0, 4, 2⟩ : Rect), ⟨0, 1, 2, 5⟩, ⟨3, 3, 4, 4⟩] 0
      = [[⟨0, by norm_num⟩, ⟨1, by norm_num⟩], [⟨2, by norm_num⟩]] := by
  rw [componentsIdx]
  rw [show List.finRange
        (List.length [(⟨0, 0, 4, 2⟩ : Rect), ⟨0, 1, 2, 5⟩, ⟨3, 3, 4, 4⟩])
      = [⟨0, by norm_num⟩, ⟨1, by norm_num⟩, ⟨2, by norm_num⟩] from by decide]
  exact groupAux_eval_L _ adjL3_eval0 adjL3_eval1 adjL3_eval2

end RagnTex

namespace RagnTex

theorem group3_eval :
    group_bounding_boxes [(⟨0, 0, 4, 2⟩ : Rect), ⟨0, 1, 2, 5⟩, ⟨3, 3, 4, 4⟩] 0
      = [⟨0, 0, 4, 5⟩, ⟨3, 3, 4, 4⟩] := by
  have hm1 : merge_bounding_boxes
      (List.map
        (fun j => ([(⟨0, 0, 4, 2⟩ : Rect), ⟨0, 1, 2, 5⟩, ⟨3, 3, 4, 4⟩]).get j)
        [⟨0, by norm_num⟩, ⟨1, by norm_num⟩])
      = some ⟨0, 0, 4, 5⟩ := by
    simp only [List.map_cons, List.map_nil,
      show ([(⟨0, 0, 4, 2⟩ : Rect), ⟨0, 1, 2, 5⟩, ⟨3, 3, 4, 4⟩]).get ⟨0, by norm_num⟩
        = ⟨0, 0, 4, 2⟩ from rfl,
      show ([(⟨0, 0, 4, 2⟩ : Rect), ⟨0, 1, 2, 5⟩, ⟨3, 3, 4, 4⟩]).get ⟨1, by norm_num⟩
        = ⟨0, 1, 2, 5⟩ from rfl]
    simp only [merge_bounding_boxes, List.foldl_cons, List.foldl_nil,
      Option.some.injEq,
      union_eval (⟨0, 0, 4, 2⟩ : Rect) ⟨0, 1, 2, 5⟩
        (by rw [is_empty_false_iff]; norm_num)
        (by rw [is_empty_false_iff]; norm_num)]
    norm_num [Rect.mk.injEq, min_def, max_def]
  have hm2 : merge_bounding_boxes
      (List.map
        (fun j => ([(⟨0, 0, 4, 2⟩ : Rect), ⟨0, 1, 2, 5⟩, ⟨3, 3, 4, 4⟩]).get j)
        [⟨2, by norm_num⟩])
      = some ⟨3, 3, 4, 4⟩ := by
    simp only [List.map_cons, List.map_nil,
      show ([(⟨0, 0, 4, 2⟩ : Rect), ⟨0, 1, 2, 5⟩, ⟨3, 3, 4, 4⟩]).get ⟨2, by norm_num⟩
        = ⟨3, 3, 4, 4⟩ from rfl]
    simp only [merge_bounding_boxes, List.foldl_nil]
  rw [group_bounding_boxes, comps3_eval]
  simp only [List.filterMap_cons, List.filterMap_nil, hm1, hm2]

end RagnTex

namespace RagnTex

theorem adjL2_eval0 :
    adjListOf [(⟨0, 0, 4, 5⟩ : Rect), ⟨3, 3, 4, 4⟩] 0 ⟨0, by norm_num⟩
      = [⟨1, by norm_num⟩] := by
  have huc : closeRects 0 (⟨0, 0, 4, 5⟩ : Rect) ⟨3, 3, 4, 4⟩ = true := by
    rw [closeRects_iff]
    norm_num
  simp only [adjListOf]
  rw [show List.finRange (List.length [(⟨0, 0, 4, 5⟩ : Rect), ⟨3, 3, 4, 4⟩])
      = [⟨0, by norm_num⟩, ⟨1, by norm_num⟩] from by decide]
  simp only [List.filter_cons, List.filter_nil,
    show ([(⟨0, 0, 4, 5⟩ : Rect), ⟨3, 3, 4, 4⟩]).get ⟨0, by norm_num⟩
      = ⟨0, 0, 4, 5⟩ from rfl,
    show ([(⟨0, 0, 4, 5⟩ : Rect), ⟨3, 3, 4, 4⟩]).get ⟨1, by norm_num⟩
      = ⟨3, 3, 4, 4⟩ from rfl, huc]
  simp +decide only [Bool.and_true, Bool.and_false]

theorem adjL2_eval1 :
    adjListOf [(⟨0, 0, 4, 5⟩ : Rect), ⟨3, 3, 4, 4⟩] 0 ⟨1, by norm_num⟩
      = [⟨0, by norm_num⟩] := by
  have hcu : closeRects 0 (⟨3, 3, 4, 4⟩ : Rect) ⟨0, 0, 4, 5⟩ = true := by
    rw [closeRects_iff]
    norm_num
  simp only [adjListOf]
  rw [show List.finRange (List.length [(⟨0, 0, 4, 5⟩ : Rect), ⟨3, 3, 4, 4⟩])
      = [⟨0, by norm_num⟩, ⟨1, by norm_num⟩] from by decide]
  simp only [List.filter_cons, List.filter_nil,
    show ([(⟨0, 0, 4, 5⟩ : Rect), ⟨3, 3, 4, 4⟩]).get ⟨0, by norm_num⟩
      = ⟨0, 0, 4, 5⟩ from rfl,
    show ([(⟨0, 0, 4, 5⟩ : Rect), ⟨3, 3, 4, 4⟩]).get ⟨1, by norm_num⟩
      = ⟨3, 3, 4, 4⟩ from rfl, hcu]
  simp +decide only [Bool.and_true, Bool.and_false]

theorem comps2_eval :
    componentsIdx [(⟨0, 0, 4, 5⟩ : Rect), ⟨3, 3, 4, 4⟩] 0
      = [[⟨0, by norm_num⟩, ⟨1, by norm_num⟩]] := by
  rw [componentsIdx]
  rw [show List.finRange (List.length [(⟨0, 0, 4, 5⟩ : Rect), ⟨3, 3, 4, 4⟩])
      = [⟨0, by norm_num⟩, ⟨1, by norm_num⟩] from by decide]
  exact groupAux_eval_pair _ adjL2_eval0 adjL2_eval1

theorem group2_eval :
    group_bounding_boxes [(⟨0, 0, 4, 5⟩ : Rect), ⟨3, 3, 4, 4⟩] 0
      = [⟨0, 0, 4, 5⟩] := by
  have hm : merge_bounding_boxes
      (List.map (fun j => ([(⟨0, 0, 4, 5⟩ : Rect), ⟨3, 3, 4, 4⟩]).get j)
        [⟨0, by norm_num⟩, ⟨1, by norm_num⟩])
      = some ⟨0, 0, 4, 5⟩ := by
    simp only [List.map_cons, List.map_nil,
      show ([(⟨0, 0, 4, 5⟩ : Rect), ⟨3, 3, 4, 4⟩]).get ⟨0, by norm_num⟩
        = ⟨0, 0, 4, 5⟩ from rfl,
      show ([(⟨0, 0, 4, 5⟩ : Rect), ⟨3, 3, 4, 4⟩]).get ⟨1, by norm_num⟩
        = ⟨3, 3, 4, 4⟩ from rfl]
    simp only [merge_bounding_boxes, List.foldl_cons, List.foldl_nil,
      Option.some.injEq,
      union_eval (⟨0, 0, 4, 5⟩ : Rect) ⟨3, 3, 4, 4⟩
        (by rw [is_empty_false_iff]; norm_num)
        (by rw [is_empty_false_iff]; norm_num)]
    norm_num [Rect.mk.injEq, min_def, max_def]
  rw [group_bounding_boxes, comps2_eval]
  simp only [List.filterMap_cons, List.filterMap_nil, hm]

end RagnTex

namespace RagnTex

theorem filterDrawings_eval3 :
    filterDrawings [some ⟨0, 0, 4, 2⟩, some ⟨0, 1, 2, 5⟩, some ⟨3, 3, 4, 4⟩]
      = [(⟨0, 0, 4, 2⟩ : Rect), ⟨0, 1, 2, 5⟩, ⟨3, 3, 4, 4⟩] := by
  have h1 : ¬((⟨0, 0, 4, 2⟩ : Rect) = zeroRect) := by
    intro h
    simp only [zeroRect, Rect.mk.injEq] at h
    norm_num at h
  have h2 : ¬((⟨0, 1, 2, 5⟩ : Rect) = zeroRect) := by
    intro h
    simp only [zeroRect, Rect.mk.injEq] at h
    norm_num at h
  have h3 : ¬((⟨3, 3, 4, 4⟩ : Rect) = zeroRect) := by
    intro h
    simp only [zeroRect, Rect.mk.injEq] at h
    norm_num at h
  simp only [filterDrawings, List.filterMap_cons, List.filterMap_nil,
    if_neg h1, if_neg h2, if_neg h3]

theorem group_nil_eval : group_bounding_boxes [] 0 = [] := by
  rw [group_bounding_boxes, componentsIdx]
  rw [show List.finRange (List.length ([] : List Rect)) = [] from rfl]
  rw [groupAux_nil]
  rfl

theorem process_eval3 :
    process_large_drawing
      [some ⟨0, 0, 4, 2⟩, some ⟨0, 1, 2, 5⟩, some ⟨3, 3, 4, 4⟩] 3 0
      = [⟨0, 0, 4, 5⟩] := by
  have hlen : (filterDrawings
      [some ⟨0, 0, 4, 2⟩, some ⟨0, 1, 2, 5⟩, some ⟨3, 3, 4, 4⟩]).length = 3 := by
    rw [filterDrawings_eval3]
    rfl
  simp only [process_large_drawing, hlen, filterDrawings_eval3]
  rw [if_neg (by norm_num)]
  rw [show List.length [(⟨0, 0, 4, 2⟩ : Rect), ⟨0, 1, 2, 5⟩, ⟨3, 3, 4, 4⟩] = 3
    from rfl]
  rw [show List.range (3 / 3 + 1) = [0, 1] from by decide]
  simp only [List.flatMap_cons, List.flatMap_nil]
  rw [show (List.drop (0 * 3)
        [(⟨0, 0, 4, 2⟩ : Rect), ⟨0, 1, 2, 5⟩, ⟨3, 3, 4, 4⟩]).take 3
      = [(⟨0, 0, 4, 2⟩ : Rect), ⟨0, 1, 2, 5⟩, ⟨3, 3, 4, 4⟩] from rfl]
  rw [show (List.drop (1 * 3)
        [(⟨0, 0, 4, 2⟩ : Rect), ⟨0, 1, 2, 5⟩, ⟨3, 3, 4, 4⟩]).take 3
      = [] from rfl]
  rw [group3_eval, group_nil_eval]
  simp only [List.append_nil]
  exact group2_eval

/-- C3 (amended): the chunked pipeline coincides with direct grouping
exactly when the primitive count is strictly below the chunk size `M`
(the source's branch is `len < M`); at count = `M` the pipeline takes
the chunked path and re-groups its own output once, which can merge
components further. -/
theorem chunking_equiv_strictly_below (drawings : List (Option Rect))
    (M : ℕ) (t : ℚ) (h : (filterDrawings drawings).length < M) :
    process_large_drawing drawings M t
      = group_bounding_boxes (filterDrawings drawings) t := by
  simp only [process_large_drawing, if_pos h]

/-- Witness for the amended C3 at a concrete input: one drawing,
chunk size 5. -/
theorem chunking_equiv_strictly_below_witness :
    (filterDrawings [some (⟨0, 0, 1, 1⟩ : Rect)]).length < 5
    ∧ process_large_drawing [some (⟨0, 0, 1, 1⟩ : Rect)] 5 0
        = group_bounding_boxes (filterDrawings [some (⟨0, 0, 1, 1⟩ : Rect)]) 0 := by
  have hne : ¬((⟨0, 0, 1, 1⟩ : Rect) = zeroRect) := by
    intro h
    simp only [zeroRect, Rect.mk.injEq] at h
    norm_num at h
  have h : (filterDrawings [some (⟨0, 0, 1, 1⟩ : Rect)]).length < 5 := by
    simp only [filterDrawings, List.filterMap_cons, List.filterMap_nil, if_neg hne]
    norm_num
  exact ⟨h, chunking_equiv_strictly_below [some (⟨0, 0, 1, 1⟩ : Rect)] 5 0 h⟩

/-- C3 counterexample: three drawings — an L-shaped pair whose merged
bounding box covers a third, non-adjacent rectangle — with chunk size
`M = 3` equal to the primitive count (so chunking is avoidable under the
claim's `M ≥ length` reading).  Direct grouping yields two components;
the chunked pipeline (whose branch condition is strict) chunks, re-groups
its own merged output, and fuses them into one: the results differ. -/
theorem chunking_equiv_counterexample :
    (filterDrawings
        [some ⟨0, 0, 4, 2⟩, some ⟨0, 1, 2, 5⟩, some ⟨3, 3, 4, 4⟩]).length ≤ 3
    ∧ process_large_drawing
        [some ⟨0, 0, 4, 2⟩, some ⟨0, 1, 2, 5⟩, some ⟨3, 3, 4, 4⟩] 3 0
        = [⟨0, 0, 4, 5⟩]
    ∧ group_bounding_boxes
        (filterDrawings
          [some ⟨0, 0, 4, 2⟩, some ⟨0, 1, 2, 5⟩, some ⟨3, 3, 4, 4⟩]) 0
        = [⟨0, 0, 4, 5⟩, ⟨3, 3, 4, 4⟩]
    ∧ process_large_drawing
        [some ⟨0, 0, 4, 2⟩, some ⟨0, 1, 2, 5⟩, some ⟨3, 3, 4, 4⟩] 3 0
        ≠ group_bounding_boxes
            (filterDrawings
              [some ⟨0, 0, 4, 2⟩, some ⟨0, 1, 2, 5⟩, some ⟨3, 3, 4, 4⟩]) 0 := by
  have hg : group_bounding_boxes
      (filterDrawings
        [some ⟨0, 0, 4, 2⟩, some ⟨0, 1, 2, 5⟩, some ⟨3, 3, 4, 4⟩]) 0
      = [⟨0, 0, 4, 5⟩, ⟨3, 3, 4, 4⟩] := by
    rw [filterDrawings_eval3, group3_eval]
  refine ⟨by rw [filterDrawings_eval3]; norm_num, process_eval3, hg, ?_⟩
  rw [process_eval3, hg]
  intro h
  have := congrArg List.length h
  simp at this

end RagnTex
